import Mathlib

/-!
Verification of the Docker image build cache of `github-opencode-interface`
(`docker_cache.py`), together with the `${VAR}` expansion of its config
loader (`Config._expand_vars` in `resolve.py` / `review_report.py`).

The filesystem is modelled as an association list from POSIX-style relative
path strings to file contents (byte lists); the external `docker` tool is
modelled by the observable outcome of one `subprocess.run` call.  SHA-256 is
implemented executably over byte lists, so every definition evaluates on
concrete inputs.
-/

set_option maxRecDepth 100000

namespace DockerCache

/-! ## Bytes, hex rendering, UTF-8 -/

/-- Truncate to a 32-bit word, as Python's fixed-width hash arithmetic does. -/
def w32 (x : Nat) : Nat := x % 4294967296

/-- Rotate a 32-bit word right by `n` bits. -/
def rotr (n x : Nat) : Nat := w32 ((x >>> n) ||| (x <<< (32 - n)))

/-- Big-endian byte rendering of `n` into exactly `k` bytes. -/
def toBytesBE : Nat → Nat → List Nat
  | 0, _ => []
  | k + 1, n => toBytesBE k (n / 256) ++ [n % 256]

/-- Lowercase hex digit for a nibble, as `hashlib`'s `hexdigest` renders. -/
def hexChar (n : Nat) : Char :=
  if n < 10 then Char.ofNat (48 + n) else Char.ofNat (87 + n)

/-- Two lowercase hex digits of one byte. -/
def byteHex (b : Nat) : List Char := [hexChar (b / 16), hexChar (b % 16)]

/-- UTF-8 encoding of a Unicode code point (standard encoding, as Python's
`str.encode('utf-8')`). -/
def encodeCp (n : Nat) : List Nat :=
  if n < 128 then [n]
  else if n < 2048 then [192 + n / 64, 128 + n % 64]
  else if n < 65536 then [224 + n / 4096, 128 + (n / 64) % 64, 128 + n % 64]
  else [240 + n / 262144, 128 + (n / 4096) % 64, 128 + (n / 64) % 64, 128 + n % 64]

/-- UTF-8 bytes of a string. -/
def utf8Bytes (s : String) : List Nat := s.data.flatMap (fun c => encodeCp c.toNat)

/-! ## SHA-256 (FIPS 180-4), executable over byte lists -/

/-- The 64 SHA-256 round constants of FIPS 180-4, written in decimal. -/
def K256 : List Nat :=
  [1116352408, 1899447441, 3049323471, 3921009573, 961987163,
   1508970993, 2453635748, 2870763221, 3624381080, 310598401,
   607225278, 1426881987, 1925078388, 2162078206, 2614888103,
   3248222580, 3835390401, 4022224774, 264347078, 604807628,
   770255983, 1249150122, 1555081692, 1996064986, 2554220882,
   2821834349, 2952996808, 3210313671, 3336571891, 3584528711,
   113926993, 338241895, 666307205, 773529912, 1294757372,
   1396182291, 1695183700, 1986661051, 2177026350, 2456956037,
   2730485921, 2820302411, 3259730800, 3345764771, 3516065817,
   3600352804, 4094571909, 275423344, 430227734, 506948616,
   659060556, 883997877, 958139571, 1322822218, 1537002063,
   1747873779, 1955562222, 2024104815, 2227730452, 2361852424,
   2428436474, 2756734187, 3204031479, 3329325298]

/-- The SHA-256 initial hash value of FIPS 180-4, written in decimal. -/
def H256 : List Nat :=
  [1779033703, 3144134277, 1013904242, 2773480762,
   1359893119, 2600822924, 528734635, 1541459225]

/-- Group a list of bytes into big-endian 32-bit words. -/
def wordsOf : List Nat → List Nat
  | a :: b :: c :: d :: rest =>
      (a * 16777216 + b * 65536 + c * 256 + d) :: wordsOf rest
  | _ => []

/-- One message-schedule step: the window holds the 16 most recent words,
oldest first; produce the next word and the shifted window. -/
def schedStep (win : List Nat) : Nat × List Nat :=
  match win with
  | [x0, x1, x2, x3, x4, x5, x6, x7, x8, x9, x10, x11, x12, x13, x14, x15] =>
      let s0 := w32 ((rotr 7 x1) ^^^ (rotr 18 x1) ^^^ (x1 >>> 3))
      let s1 := w32 ((rotr 17 x14) ^^^ (rotr 19 x14) ^^^ (x14 >>> 10))
      let nw := w32 (x0 + s0 + x9 + s1)
      (nw, [x1, x2, x3, x4, x5, x6, x7, x8, x9, x10, x11, x12, x13, x14, x15, nw])
  | _ => (0, win)

/-- Produce `n` further schedule words from a window. -/
def schedRun : Nat → List Nat → List Nat
  | 0, _ => []
  | n + 1, win =>
      let p := schedStep win
      p.1 :: schedRun n p.2

/-- The full 64-word message schedule of one 64-byte block. -/
def fullWords (block : List Nat) : List Nat :=
  let ws := wordsOf block
  ws ++ schedRun 48 ws

/-- One SHA-256 round on the working state `[a,b,c,d,e,f,g,h]`. -/
def roundStep (st : List Nat) (k w : Nat) : List Nat :=
  match st with
  | [a, b, c, d, e, f, g, h] =>
      let bigS1 := w32 ((rotr 6 e) ^^^ (rotr 11 e) ^^^ (rotr 25 e))
      let ch := w32 ((e &&& f) ^^^ ((e ^^^ 4294967295) &&& g))
      let temp1 := w32 (h + bigS1 + ch + k + w)
      let bigS0 := w32 ((rotr 2 a) ^^^ (rotr 13 a) ^^^ (rotr 22 a))
      let maj := w32 ((a &&& b) ^^^ (a &&& c) ^^^ (b &&& c))
      let temp2 := w32 (bigS0 + maj)
      [w32 (temp1 + temp2), a, b, c, w32 (d + temp1), e, f, g]
  | _ => st

/-- Compress one 64-byte block into the running hash state (8 words). -/
def compress (h : List Nat) (block : List Nat) : List Nat :=
  let kws := K256.zip (fullWords block)
  let st := kws.foldl (fun st kw => roundStep st kw.1 kw.2) h
  (h.zip st).map (fun p => w32 (p.1 + p.2))

/-- SHA-256 padding: `0x80`, zeros to 56 mod 64, then the bit length as
eight big-endian bytes. -/
def padMsg (msg : List Nat) : List Nat :=
  let l := msg.length
  msg ++ 128 :: List.replicate ((119 - l % 64) % 64) 0 ++ toBytesBE 8 (8 * l)

/-- Split into 64-byte blocks (fueled by the list length). -/
def chunksGo : Nat → List Nat → List (List Nat)
  | 0, _ => []
  | _ + 1, [] => []
  | fuel + 1, l => l.take 64 :: chunksGo fuel (l.drop 64)

/-- The 64-byte blocks of a padded message. -/
def chunks64 (l : List Nat) : List (List Nat) := chunksGo l.length l

/-- SHA-256 digest (32 bytes) of a byte list. -/
def sha256 (msg : List Nat) : List Nat :=
  ((chunks64 (padMsg msg)).foldl compress H256).flatMap (toBytesBE 4)

/-- Lowercase hexadecimal SHA-256 digest of a byte list, matching
`hashlib.sha256(...).hexdigest()`. -/
def sha256hex (msg : List Nat) : String :=
  String.mk ((sha256 msg).flatMap byteHex)

/-! ## String utilities

Python compares path strings code point by code point; `lexLe` is that
ordering, made executable on `List Char`. -/

/-- Lexicographic (code-point) `≤` on character lists, Python string order. -/
def lexLe : List Char → List Char → Bool
  | [], _ => true
  | _ :: _, [] => false
  | a :: as, b :: bs =>
      if a.toNat < b.toNat then true
      else if b.toNat < a.toNat then false
      else lexLe as bs

/-- Python string `<=` on `String`. -/
def strLe (s t : String) : Bool := lexLe s.data t.data

/-- Python string `<=` as a relation. -/
def pathLe (s t : String) : Prop := strLe s t = true

instance : DecidableRel pathLe := fun s t => instDecidableEqBool (strLe s t) true

/-- `sorted(...)` on a list of path strings (Python's lexicographic sort;
with an antisymmetric total order, any sort computes the same list). -/
def sortPaths (l : List String) : List String := l.insertionSort pathLe

/-- `listStarts pat l`: does `l` start with `pat`? -/
def listStarts : List Char → List Char → Bool
  | [], _ => true
  | _ :: _, [] => false
  | a :: as, b :: bs => a == b && listStarts as bs

/-- `isInfixChars pat l`: does `pat` occur contiguously inside `l`?
Models Python's `in` on strings. -/
def isInfixChars (pat : List Char) : List Char → Bool
  | [] => pat.isEmpty
  | c :: rest => listStarts pat (c :: rest) || isInfixChars pat rest

/-- Python `needle in haystack` for strings. -/
def strContains (haystack needle : String) : Bool :=
  isInfixChars needle.data haystack.data

/-- The ASCII whitespace characters stripped by Python's `str.strip()`. -/
def isSpaceChar (c : Char) : Bool :=
  c == ' ' || c == '\t' || c == '\n' || c == '\r' || c == '\x0b' || c == '\x0c'

/-- Strip leading and trailing whitespace from a character list. -/
def stripChars (l : List Char) : List Char :=
  ((l.dropWhile isSpaceChar).reverse.dropWhile isSpaceChar).reverse

/-- Python's `str.strip()` (ASCII whitespace, which is all that docker
`inspect` output contains). -/
def pyStrip (s : String) : String := String.mk (stripChars s.data)

/-! ## Filesystem model

A filesystem state is an association list from POSIX-style relative path
(relative to the repository root, forward slashes) to file content bytes.
Directories are implicit: `d` is a directory when some file lives strictly
below `d/`. -/

/-- File content, as bytes. -/
abbrev Content := List Nat

/-- A filesystem state below the repository root. -/
abbrev FS := List (String × Content)

/-- The relative paths of all files. -/
def keysOf (fs : FS) : List String := fs.map Prod.fst

/-- Content of the file at `p` (unspecified-empty if absent). -/
def lookupC (fs : FS) (p : String) : Content := (fs.lookup p).getD []

/-- `underDir d p`: path `p` is strictly below directory `d`. -/
def underDir (d p : String) : Bool := listStarts (d.data ++ ['/']) p.data

/-- `target.is_file()`: a file exists exactly at `p`. -/
def isFile (fs : FS) (p : String) : Bool := decide (p ∈ keysOf fs)

/-- `p` is a directory: some file lives strictly below it. -/
def isDir (fs : FS) (p : String) : Bool := (keysOf fs).any (fun q => underDir p q)

/-- `target.exists()`. -/
def pathExists (fs : FS) (p : String) : Bool := isFile fs p || isDir fs p

/-- A physically possible filesystem state: each path listed once, and no
file path lies strictly below another file path. -/
def WellFormed (fs : FS) : Prop :=
  (keysOf fs).Nodup ∧ ∀ p ∈ keysOf fs, ∀ q ∈ keysOf fs, underDir p q = false

/-- `HASH_LABEL`. -/
def HASH_LABEL : String := "com.github-opencode-interface.content-hash"

/-- `_HASH_TARGETS`. -/
def HASH_TARGETS : List String :=
  ["docker/Dockerfile", "docker/scripts/lib", "docker/scripts/orchestrator.sh",
   "docker/prompts", "docker/opencode", "auth.json"]

/-- Fatal errors of the cache layer (Python raises `FileNotFoundError`
resp. `RuntimeError`; the spec names them `MissingInput` and
`ToolUnavailable`). -/
inductive CacheError where
  | missingInput (path : String)
  | toolUnavailable (msg : String)
deriving DecidableEq, Repr

instance {ε α : Type} [DecidableEq ε] [DecidableEq α] : DecidableEq (Except ε α) := fun x y =>
  match x, y with
  | .ok a, .ok b =>
      if h : a = b then isTrue (by rw [h])
      else isFalse (by intro he; cases he; exact h rfl)
  | .ok _, .error _ => isFalse (by intro h; cases h)
  | .error _, .ok _ => isFalse (by intro h; cases h)
  | .error e, .error f =>
      if h : e = f then isTrue (by rw [h])
      else isFalse (by intro he; cases he; exact h rfl)

/-- One `_HASH_TARGETS` entry of `_collect_files`: a missing `auth.json` is
skipped, any other missing target raises; a file contributes itself, a
directory contributes all files below it sorted by relative POSIX path. -/
def collectTarget (fs : FS) (rel : String) : Except CacheError (List String) :=
  if pathExists fs rel then
    if isFile fs rel then .ok [rel]
    else .ok (sortPaths ((keysOf fs).filter (fun p => underDir rel p)))
  else if rel = "auth.json" then .ok []
  else .error (.missingInput rel)

/-- The loop of `_collect_files` over a target list: the first failing
target aborts the collection. -/
def collectTargets (fs : FS) : List String → Except CacheError (List String)
  | [] => .ok []
  | t :: ts =>
      match collectTarget fs t with
      | .error e => .error e
      | .ok l =>
          match collectTargets fs ts with
          | .error e => .error e
          | .ok r => .ok (l ++ r)

/-- `_collect_files`: gather all targets, then sort the whole list by
relative POSIX path. -/
def collect_files (fs : FS) : Except CacheError (List String) :=
  (collectTargets fs HASH_TARGETS).map sortPaths

/-- A `hashlib` hasher state, modelled as the byte sequence fed so far
(`update` is append, the digest is taken at the end). -/
def hUpdate (h : List Nat) (data : List Nat) : List Nat := h ++ data

/-- The chunked `handle.read(1024 * 1024)` loop of `_hash_file`, fueled by
the content length. -/
def chunkUpd : Nat → List Nat → List Nat → List Nat
  | 0, h, _ => h
  | _ + 1, h, [] => h
  | fuel + 1, h, content =>
      chunkUpd fuel (hUpdate h (content.take 1048576)) (content.drop 1048576)

/-- `_hash_file`: feed the relative path (UTF-8), a NUL, the file bytes in
1 MiB chunks, and a trailing NUL. -/
def hash_file (h : List Nat) (fs : FS) (p : String) : List Nat :=
  let h1 := hUpdate h (utf8Bytes p)
  let h2 := hUpdate h1 [0]
  let h3 := chunkUpd (lookupC fs p).length h2 (lookupC fs p)
  hUpdate h3 [0]

/-- The `hexdigest` of the hasher after feeding every collected file. -/
def digest_of (fs : FS) (files : List String) : String :=
  sha256hex (files.foldl (fun h p => hash_file h fs p) [])

/-- `calculate_repo_hash`. -/
def calculate_repo_hash (fs : FS) : Except CacheError String :=
  (collect_files fs).map (digest_of fs)

/-- The per-file contribution to the digest input, as the spec describes
it: UTF-8 path, one NUL, full content, one NUL. -/
def fileSegment (fs : FS) (p : String) : List Nat :=
  utf8Bytes p ++ 0 :: (lookupC fs p ++ [0])

/-- The whole byte stream fed to the single SHA-256 state. -/
def hashStream (fs : FS) (files : List String) : List Nat :=
  files.flatMap (fileSegment fs)

/-! ## The external `docker` tool

A call of `subprocess.run` on the docker CLI either fails to start
(`FileNotFoundError`: the binary is missing) or completes with captured
output, captured error stream and an exit status. -/

/-- Observable outcome of one `subprocess.run(['docker', ...])` call. -/
inductive RunOutcome where
  | binaryMissing
  | completed (stdout : String) (stderr : String) (returncode : Int)

/-- The daemon-unreachable marker scanned for in stderr. -/
def DAEMON_MARKER : String := "Cannot connect to the Docker daemon"

/-- `get_image_hash_label`, as a function of the inspect call's outcome. -/
def get_image_hash_label (run : RunOutcome) : Except CacheError (Option String) :=
  match run with
  | .binaryMissing =>
      .error (.toolUnavailable "Docker executable not found. Is Docker installed and on PATH?")
  | .completed out err rc =>
      if (!(err == "")) && strContains err DAEMON_MARKER then
        .error (.toolUnavailable "Cannot connect to the Docker daemon. Is it running?")
      else if rc != 0 then .ok none
      else
        let value := pyStrip out
        if value == "" || value == "<no value>" || value == "null" then .ok none
        else .ok (some value)

/-- The argument vector `build_docker_image` passes to `docker` (identical
in the verbose and quiet branches; only stream capture differs). -/
def buildCmd (dockerfile_path image_name content_hash : String) : List String :=
  ["docker", "build", "--label", HASH_LABEL ++ "=" ++ content_hash,
   "-t", image_name, "-f", dockerfile_path, "."]

/-- `build_docker_image`, as a function of the build call's outcome.  The
path, name, hash and verbosity only shape the spawned command; the
error-classification logic below is the same in both verbosity branches. -/
def build_docker_image (dockerfile_path image_name content_hash : String)
    (verbose : Bool) (run : RunOutcome) : Except CacheError Bool :=
  match run with
  | .binaryMissing =>
      .error (.toolUnavailable "Docker executable not found. Is Docker installed and on PATH?")
  | .completed _ err rc =>
      if (!(err == "")) && strContains err DAEMON_MARKER then
        .error (.toolUnavailable "Cannot connect to the Docker daemon. Is it running?")
      else .ok (rc == 0)

/-- `should_rebuild_image`: the fingerprint is always computed first and any
exception propagates; under `force_build` the inspect call is never made. -/
def should_rebuild_image (fs : FS) (inspectRun : RunOutcome) (force_build : Bool) :
    Except CacheError (Bool × String) :=
  match calculate_repo_hash fs with
  | .error e => .error e
  | .ok current_hash =>
      if force_build then .ok (true, current_hash)
      else
        match get_image_hash_label inspectRun with
        | .error e => .error e
        | .ok none => .ok (true, current_hash)
        | .ok (some existing_hash) => .ok (existing_hash != current_hash, current_hash)

/-! ## `Config._expand_vars` (`resolve.py` / `review_report.py`)

`re.sub(r'\$\x7b([^\x7d]+)\x7d', replace, value)` with
`replace = lambda m: values.get(name, environ.get(name, ''))`: one left-to-
right pass, each `$\x7bNAME\x7d` token replaced by the lookup, replacement
text emitted verbatim (never rescanned). -/

/-- Scan up to the first `\x7d`; return the name before it and the rest
after it, or `none` when no `\x7d` follows. -/
def scanName : List Char → Option (List Char × List Char)
  | [] => none
  | c :: rest =>
      if c = '\x7d' then some ([], rest)
      else
        match scanName rest with
        | some (n, r) => some (c :: n, r)
        | none => none

/-- `values.get(name, environ.get(name, ''))`. -/
def lookupVar (lk ek : String → Option String) (name : String) : String :=
  match lk name with
  | some v => v
  | none =>
      match ek name with
      | some v => v
      | none => ""

/-- The single substitution pass of `re.sub`, fueled by the input length
(each step consumes at least one character).  On `$\x7bNAME\x7d` with a
nonempty `\x7d`-free name the lookup's value is emitted verbatim and the
scan resumes after the token; everywhere else one character is emitted and
the scan resumes after it, exactly as `re.sub` moves its cursor. -/
def expandGo (lk ek : String → Option String) : Nat → List Char → List Char
  | 0, l => l
  | _ + 1, [] => []
  | fuel + 1, c :: rest =>
      if c = '$' then
        match rest with
        | '\x7b' :: rest2 =>
            (match scanName rest2 with
             | some (n, r) =>
                 if n = [] then c :: expandGo lk ek fuel rest
                 else (lookupVar lk ek (String.mk n)).data ++ expandGo lk ek fuel r
             | none => c :: expandGo lk ek fuel rest)
        | _ => c :: expandGo lk ek fuel rest
      else c :: expandGo lk ek fuel rest

/-- `Config._expand_vars`, with the already-loaded values `lk` and the
process environment `ek` as explicit lookups. -/
def expand_vars (lk ek : String → Option String) (value : String) : String :=
  String.mk (expandGo lk ek value.data.length value.data)

/-- A concrete local map for checks: `A` holds a value that itself looks
like a `$\x7bB\x7d` token. -/
def lkW : String → Option String := fun s => if s = "A" then some "$\x7bB\x7d" else none

/-- A concrete environment for checks. -/
def ekW : String → Option String := fun s => if s = "B" then some "envB" else none

/-! ## Single-change relations between filesystem states

The spec's sensitivity property speaks of two filesystem states that differ
by exactly one edit; these relations formalise the four edits. -/

theorem charEq_of_toNat (a b : Char) (h : a.toNat = b.toNat) : a = b :=
  Char.ext (UInt32.ext h)

theorem lexLe_total : ∀ a b : List Char, lexLe a b = true ∨ lexLe b a = true := by
  intro a
  induction a with
  | nil => intro b; left; rfl
  | cons x xs ih =>
      intro b
      cases b with
      | nil => right; rfl
      | cons y ys =>
          simp only [lexLe]
          rcases Nat.lt_trichotomy x.toNat y.toNat with h | h | h
          · left; simp [h]
          · have hxy : ¬ x.toNat < y.toNat := by omega
            have hyx : ¬ y.toNat < x.toNat := by omega
            simpa [hxy, hyx] using ih ys
          · right; simp [h]

theorem lexLe_trans :
    ∀ a b c : List Char, lexLe a b = true → lexLe b c = true → lexLe a c = true := by
  intro a
  induction a with
  | nil => intro b c _ _; rfl
  | cons x xs ih =>
      intro b c hab hbc
      cases b with
      | nil => simp [lexLe] at hab
      | cons y ys =>
          cases c with
          | nil => simp [lexLe] at hbc
          | cons z zs =>
              simp only [lexLe] at hab hbc ⊢
              rcases Nat.lt_trichotomy x.toNat y.toNat with h₁ | h₁ | h₁
              · rcases Nat.lt_trichotomy y.toNat z.toNat with h₂ | h₂ | h₂
                · simp [show x.toNat < z.toNat from by omega]
                · simp [show x.toNat < z.toNat from by omega]
                · simp [show ¬ y.toNat < z.toNat from by omega, h₂] at hbc
              · rcases Nat.lt_trichotomy y.toNat z.toNat with h₂ | h₂ | h₂
                · simp [show x.toNat < z.toNat from by omega]
                · have hxz : ¬ x.toNat < z.toNat := by omega
                  have hzx : ¬ z.toNat < x.toNat := by omega
                  have hxy : ¬ x.toNat < y.toNat := by omega
                  have hyx : ¬ y.toNat < x.toNat := by omega
                  have hyz : ¬ y.toNat < z.toNat := by omega
                  have hzy : ¬ z.toNat < y.toNat := by omega
                  simp only [hxy, hyx, if_false] at hab
                  simp only [hyz, hzy, if_false] at hbc
                  simp only [hxz, hzx, if_false]
                  exact ih ys zs hab hbc
                · simp [show ¬ y.toNat < z.toNat from by omega, h₂] at hbc
              · simp [show ¬ x.toNat < y.toNat from by omega, h₁] at hab

theorem lexLe_antisymm :
    ∀ a b : List Char, lexLe a b = true → lexLe b a = true → a = b := by
  intro a
  induction a with
  | nil =>
      intro b _ hba
      cases b with
      | nil => rfl
      | cons y ys => simp [lexLe] at hba
  | cons x xs ih =>
      intro b hab hba
      cases b with
      | nil => simp [lexLe] at hab
      | cons y ys =>
          simp only [lexLe] at hab hba
          rcases Nat.lt_trichotomy x.toNat y.toNat with h | h | h
          · simp [show ¬ y.toNat < x.toNat from by omega, show x.toNat < y.toNat from h] at hba
          · have hxy : ¬ x.toNat < y.toNat := by omega
            have hyx : ¬ y.toNat < x.toNat := by omega
            simp only [hxy, hyx, if_false, if_true] at hab hba
            rw [charEq_of_toNat x y h, ih ys hab hba]
          · simp [show ¬ x.toNat < y.toNat from by omega, show y.toNat < x.toNat from h] at hab

instance : IsTotal String pathLe :=
  ⟨fun s t => lexLe_total s.data t.data⟩

instance : IsTrans String pathLe :=
  ⟨fun s t u hab hbc => lexLe_trans s.data t.data u.data hab hbc⟩

instance : IsAntisymm String pathLe :=
  ⟨fun s t hab hba => String.ext (lexLe_antisymm s.data t.data hab hba)⟩

theorem sortPaths_perm (l : List String) : (sortPaths l).Perm l :=
  List.perm_insertionSort pathLe l

theorem sortPaths_sorted (l : List String) : List.Sorted pathLe (sortPaths l) :=
  List.sorted_insertionSort pathLe l

/-- Sorting is insensitive to the enumeration order of its input: any two
permuted inputs sort to the same list. -/
theorem sortPaths_congr {l₁ l₂ : List String} (h : l₁.Perm l₂) :
    sortPaths l₁ = sortPaths l₂ :=
  List.eq_of_perm_of_sorted
    (((sortPaths_perm l₁).trans h).trans (sortPaths_perm l₂).symm)
    (sortPaths_sorted l₁) (sortPaths_sorted l₂)

theorem sortPaths_nodup {l : List String} (h : l.Nodup) : (sortPaths l).Nodup :=
  h.perm (sortPaths_perm l).symm

theorem mem_sortPaths {l : List String} {p : String} : p ∈ sortPaths l ↔ p ∈ l :=
  (sortPaths_perm l).mem_iff

/-! ## Lookup lemmas -/

theorem keysOf_cons (k : String) (v : Content) (l : FS) :
    keysOf ((k, v) :: l) = k :: keysOf l := rfl

theorem lookup_eq_of_perm {fs₁ fs₂ : FS} (h : fs₁.Perm fs₂) :
    (keysOf fs₁).Nodup → ∀ p, fs₁.lookup p = fs₂.lookup p := by
  induction h with
  | nil => intro _ p; rfl
  | cons x _ ih =>
      intro hnd p
      obtain ⟨k, v⟩ := x
      rw [keysOf_cons] at hnd
      simp only [List.lookup_cons]
      cases hpk : p == k
      · exact ih hnd.of_cons p
      · rfl
  | swap x y l =>
      intro hnd p
      obtain ⟨k₁, v₁⟩ := y
      obtain ⟨k₂, v₂⟩ := x
      rw [keysOf_cons, keysOf_cons] at hnd
      have hne : k₁ ≠ k₂ := by
        intro he
        exact (List.nodup_cons.mp hnd).1 (by simp [he])
      simp only [List.lookup_cons]
      cases h1 : p == k₁ <;> cases h2 : p == k₂
      · rfl
      · rfl
      · rfl
      · exact absurd ((eq_of_beq h1).symm.trans (eq_of_beq h2)) hne
  | trans h₁ h₂ ih₁ ih₂ =>
      intro hnd p
      have hnd₂ : (keysOf _).Nodup := hnd.perm (h₁.map Prod.fst)
      exact (ih₁ hnd p).trans (ih₂ hnd₂ p)

theorem head_dropWhile_false {p : Char → Bool} {l : List Char} {c : Char}
    (h : (l.dropWhile p).head? = some c) : p c = false := by
  have hne : l.dropWhile p ≠ [] := by
    intro he; rw [he] at h; cases h
  have hpf := List.head_dropWhile_not p l hne
  rw [List.head?_eq_head hne, Option.some_inj] at h
  rw [← h]
  exact hpf

theorem getLast?_of_suffix {l m : List Char} (h : l <:+ m) (hne : l ≠ []) :
    m.getLast? = l.getLast? := by
  obtain ⟨C, rfl⟩ := h
  rw [List.getLast?_append]
  cases hl : l.getLast? with
  | none => exact absurd (List.getLast?_eq_none_iff.mp hl) hne
  | some x => rfl

theorem stripChars_head {l : List Char} {c : Char}
    (h : (stripChars l).head? = some c) : isSpaceChar c = false := by
  unfold stripChars at h
  set Y := l.dropWhile isSpaceChar with hY
  set D := Y.reverse.dropWhile isSpaceChar with hD
  have hDne : D ≠ [] := by
    intro he
    rw [he] at h
    cases h
  rw [List.head?_reverse] at h
  have hsuff : D <:+ Y.reverse := List.dropWhile_suffix _
  have h1 : Y.reverse.getLast? = D.getLast? := getLast?_of_suffix hsuff hDne
  rw [← h1, List.getLast?_reverse] at h
  exact head_dropWhile_false (p := isSpaceChar) h

theorem stripChars_getLast {l : List Char} {c : Char}
    (h : (stripChars l).getLast? = some c) : isSpaceChar c = false := by
  unfold stripChars at h
  rw [List.getLast?_reverse] at h
  exact head_dropWhile_false (p := isSpaceChar) h

/-! ## Prefix lemmas -/

theorem listStarts_iff : ∀ a b : List Char, listStarts a b = true ↔ a <+: b := by
  intro a
  induction a with
  | nil => intro b; simp [listStarts]
  | cons x xs ih =>
      intro b
      cases b with
      | nil => simp [listStarts]
      | cons y ys =>
          simp only [listStarts, Bool.and_eq_true, beq_iff_eq, List.cons_prefix_cons, ih ys]

theorem any_eq_of_perm {α : Type} {l₁ l₂ : List α} (h : l₁.Perm l₂) (f : α → Bool) :
    l₁.any f = l₂.any f :=
  Bool.eq_iff_iff.mpr (by
    simp only [List.any_eq_true]
    exact ⟨fun ⟨x, hx, hf⟩ => ⟨x, h.mem_iff.mp hx, hf⟩,
      fun ⟨x, hx, hf⟩ => ⟨x, h.mem_iff.mpr hx, hf⟩⟩)

/-- If both `t₁` and `t₂` are directory prefixes of the same path, they are
equal or nested. -/
theorem underDir_trich {t₁ t₂ k : String} (h₁ : underDir t₁ k = true)
    (h₂ : underDir t₂ k = true) :
    t₁ = t₂ ∨ underDir t₁ t₂ = true ∨ underDir t₂ t₁ = true := by
  rw [underDir, listStarts_iff] at h₁ h₂
  rcases Nat.le_total (t₁.data ++ ['/']).length (t₂.data ++ ['/']).length with hle | hle
  · have hp : t₁.data ++ ['/'] <+: t₂.data ++ ['/'] :=
      List.prefix_of_prefix_length_le h₁ h₂ hle
    rcases Nat.lt_or_ge (t₁.data ++ ['/']).length (t₂.data ++ ['/']).length with hlt | hge
    · right; left
      rw [underDir, listStarts_iff]
      refine List.prefix_of_prefix_length_le hp (List.prefix_append _ _) ?_
      simp at hlt ⊢
      omega
    · left
      have := hp.eq_of_length (Nat.le_antisymm hle hge)
      have h' := List.append_inj this (by simp at hle hge ⊢; omega)
      exact String.ext h'.1
  · have hp : t₂.data ++ ['/'] <+: t₁.data ++ ['/'] :=
      List.prefix_of_prefix_length_le h₂ h₁ hle
    rcases Nat.lt_or_ge (t₂.data ++ ['/']).length (t₁.data ++ ['/']).length with hlt | hge
    · right; right
      rw [underDir, listStarts_iff]
      refine List.prefix_of_prefix_length_le hp (List.prefix_append _ _) ?_
      simp at hlt ⊢
      omega
    · left
      have := hp.eq_of_length (Nat.le_antisymm hle hge)
      have h' := List.append_inj this (by simp at hle hge ⊢; omega)
      exact String.ext h'.1.symm

/-! ## Permutation invariance of the collection -/

theorem keysOf_perm {fs₁ fs₂ : FS} (h : fs₁.Perm fs₂) : (keysOf fs₁).Perm (keysOf fs₂) :=
  h.map Prod.fst

theorem isFile_eq_of_perm {fs₁ fs₂ : FS} (h : fs₁.Perm fs₂) (p : String) :
    isFile fs₁ p = isFile fs₂ p :=
  decide_eq_decide.mpr (keysOf_perm h).mem_iff

theorem isDir_eq_of_perm {fs₁ fs₂ : FS} (h : fs₁.Perm fs₂) (p : String) :
    isDir fs₁ p = isDir fs₂ p :=
  any_eq_of_perm (keysOf_perm h) _

theorem pathExists_eq_of_perm {fs₁ fs₂ : FS} (h : fs₁.Perm fs₂) (p : String) :
    pathExists fs₁ p = pathExists fs₂ p := by
  rw [pathExists, pathExists, isFile_eq_of_perm h, isDir_eq_of_perm h]

theorem collectTarget_eq_of_perm {fs₁ fs₂ : FS} (h : fs₁.Perm fs₂) (t : String) :
    collectTarget fs₁ t = collectTarget fs₂ t := by
  unfold collectTarget
  rw [pathExists_eq_of_perm h, isFile_eq_of_perm h]
  cases hex : pathExists fs₂ t
  · simp
  · cases hfile : isFile fs₂ t
    · simp only [if_pos rfl, Bool.false_eq_true, if_false]
      exact congrArg Except.ok (sortPaths_congr ((keysOf_perm h).filter _))
    · simp

theorem collectTargets_eq_of_perm {fs₁ fs₂ : FS} (h : fs₁.Perm fs₂) :
    ∀ ts, collectTargets fs₁ ts = collectTargets fs₂ ts := by
  intro ts
  induction ts with
  | nil => rfl
  | cons t ts ih =>
      unfold collectTargets
      rw [collectTarget_eq_of_perm h, ih]

theorem collect_files_eq_of_perm {fs₁ fs₂ : FS} (h : fs₁.Perm fs₂) :
    collect_files fs₁ = collect_files fs₂ := by
  unfold collect_files
  rw [collectTargets_eq_of_perm h]

theorem lookupC_eq_of_perm {fs₁ fs₂ : FS} (h : fs₁.Perm fs₂)
    (hnd : (keysOf fs₁).Nodup) (p : String) : lookupC fs₁ p = lookupC fs₂ p := by
  rw [lookupC, lookupC, lookup_eq_of_perm h hnd]

theorem hash_file_eq {fs₁ fs₂ : FS} (hl : ∀ p, lookupC fs₁ p = lookupC fs₂ p)
    (h : List Nat) (p : String) : hash_file h fs₁ p = hash_file h fs₂ p := by
  unfold hash_file
  rw [hl]

theorem digest_of_eq {fs₁ fs₂ : FS} (hl : ∀ p, lookupC fs₁ p = lookupC fs₂ p)
    (files : List String) : digest_of fs₁ files = digest_of fs₂ files := by
  unfold digest_of
  have : ∀ h, files.foldl (fun h p => hash_file h fs₁ p) h =
      files.foldl (fun h p => hash_file h fs₂ p) h := by
    induction files with
    | nil => intro h; rfl
    | cons q qs ih =>
        intro h
        simp only [List.foldl_cons]
        rw [hash_file_eq hl, ih]
  rw [this]

/-! ## C3: determinism and traversal-order independence -/

/-- **C3.** The fingerprint depends only on the set of (path, bytes) pairs,
not on the order in which the filesystem enumerates them: permuting the
entry list (with each path listed once, as on a real filesystem) yields the
identical `calculate_repo_hash` result. -/
theorem fingerprint_order_independent :
    ∀ fs₁ fs₂ : FS, fs₁.Perm fs₂ → (keysOf fs₁).Nodup →
      calculate_repo_hash fs₁ = calculate_repo_hash fs₂ := by
  intro fs₁ fs₂ h hnd
  unfold calculate_repo_hash
  rw [collect_files_eq_of_perm h]
  generalize collect_files fs₂ = res
  cases res with
  | error e =>
      show (Except.error e : Except CacheError String) = Except.error e
      rfl
  | ok L =>
      show Except.ok (digest_of fs₁ L) = Except.ok (digest_of fs₂ L)
      rw [digest_of_eq (lookupC_eq_of_perm h hnd)]

theorem fingerprint_order_independent_witness :
    calculate_repo_hash
        [("docker/prompts", [104, 105]), ("docker/Dockerfile", [70]),
         ("docker/scripts/lib", []), ("docker/scripts/orchestrator.sh", []),
         ("docker/opencode", [])] =
      calculate_repo_hash
        [("docker/Dockerfile", [70]), ("docker/scripts/lib", []),
         ("docker/scripts/orchestrator.sh", []), ("docker/prompts", [104, 105]),
         ("docker/opencode", [])] :=
  fingerprint_order_independent _ _ (by decide) (by decide)

/-! ## Inversion and membership of the collection -/

theorem bool_eq_false {b : Bool} (h : ¬ b = true) : b = false := by
  cases b
  · rfl
  · exact absurd rfl h

theorem collectTarget_ok_cases {fs : FS} {t : String} {l : List String}
    (h : collectTarget fs t = .ok l) :
    (isFile fs t = true ∧ l = [t])
    ∨ (pathExists fs t = true ∧ isFile fs t = false ∧
        l = sortPaths ((keysOf fs).filter (fun p => underDir t p)))
    ∨ (pathExists fs t = false ∧ t = "auth.json" ∧ l = []) := by
  unfold collectTarget at h
  split at h
  · rename_i hex
    split at h
    · rename_i hfile
      left
      injection h with h'
      exact ⟨hfile, h'.symm⟩
    · rename_i hfile
      right; left
      injection h with h'
      exact ⟨hex, bool_eq_false hfile, h'.symm⟩
  · rename_i hex
    split at h
    · rename_i hauth
      right; right
      injection h with h'
      exact ⟨bool_eq_false hex, hauth, h'.symm⟩
    · cases h

theorem mem_collectTarget {fs : FS} {t : String} {l : List String} {k : String}
    (h : collectTarget fs t = .ok l) (hk : k ∈ l) :
    (isFile fs t = true ∧ k = t)
    ∨ (isFile fs t = false ∧ underDir t k = true ∧ k ∈ keysOf fs) := by
  rcases collectTarget_ok_cases h with ⟨hf, rfl⟩ | ⟨_, hf, rfl⟩ | ⟨_, _, rfl⟩
  · left
    exact ⟨hf, by simpa using hk⟩
  · right
    rw [mem_sortPaths, List.mem_filter] at hk
    exact ⟨hf, hk.2, hk.1⟩
  · cases hk

theorem collectTarget_total {fs : FS} {t : String} (h : pathExists fs t = true) :
    ∃ l, collectTarget fs t = .ok l := by
  by_cases hf : isFile fs t = true
  · exact ⟨[t], by unfold collectTarget; rw [if_pos h, if_pos hf]⟩
  · exact ⟨_, by unfold collectTarget; rw [if_pos h, if_neg hf]⟩

theorem collectTarget_auth_skip {fs : FS} (h : pathExists fs "auth.json" = false) :
    collectTarget fs "auth.json" = .ok [] := by
  unfold collectTarget
  rw [if_neg (by simp [h]), if_pos rfl]

theorem collectTargets_total {fs : FS} :
    ∀ ts : List String, (∀ t ∈ ts, pathExists fs t = true ∨ t = "auth.json") →
      ∃ L, collectTargets fs ts = .ok L := by
  intro ts
  induction ts with
  | nil => exact fun _ => ⟨[], rfl⟩
  | cons t ts ih =>
      intro hall
      have hhead : ∃ l, collectTarget fs t = .ok l := by
        rcases hall t (by simp) with h | h
        · exact collectTarget_total h
        · by_cases hex : pathExists fs t = true
          · exact collectTarget_total hex
          · subst h
            exact ⟨[], collectTarget_auth_skip (bool_eq_false hex)⟩
      obtain ⟨l, hl⟩ := hhead
      obtain ⟨L, hL⟩ := ih (fun u hu => hall u (List.mem_cons_of_mem _ hu))
      exact ⟨l ++ L, by unfold collectTargets; rw [hl, hL]⟩

theorem collectTargets_error {fs : FS} :
    ∀ ts : List String, (∃ t ∈ ts, pathExists fs t = false ∧ t ≠ "auth.json") →
      ∃ p, collectTargets fs ts = .error (.missingInput p) ∧
        pathExists fs p = false ∧ p ∈ ts ∧ p ≠ "auth.json" := by
  intro ts
  induction ts with
  | nil =>
      rintro ⟨t, ht, -⟩
      cases ht
  | cons t ts ih =>
      rintro ⟨u, hu, hex, hne⟩
      by_cases hext : pathExists fs t = true
      · have hu' : u ∈ ts := by
          rcases List.mem_cons.mp hu with rfl | h
          · rw [hext] at hex; cases hex
          · exact h
        obtain ⟨l, hl⟩ := collectTarget_total hext
        obtain ⟨p, hp, hpex, hpmem, hpne⟩ := ih ⟨u, hu', hex, hne⟩
        exact ⟨p, by unfold collectTargets; rw [hl, hp], hpex,
          List.mem_cons_of_mem _ hpmem, hpne⟩
      · by_cases hta : t = "auth.json"
        · have hu' : u ∈ ts := by
            rcases List.mem_cons.mp hu with rfl | h
            · exact absurd hta hne
            · exact h
          obtain ⟨p, hp, hpex, hpmem, hpne⟩ := ih ⟨u, hu', hex, hne⟩
          refine ⟨p, ?_, hpex, List.mem_cons_of_mem _ hpmem, hpne⟩
          subst hta
          unfold collectTargets
          rw [collectTarget_auth_skip (bool_eq_false hext), hp]
        · refine ⟨t, ?_, bool_eq_false hext, by simp, hta⟩
          unfold collectTargets
          have hct : collectTarget fs t = .error (.missingInput t) := by
            unfold collectTarget
            rw [if_neg hext, if_neg hta]
          rw [hct]

theorem mem_collectTargets {fs : FS} :
    ∀ (ts : List String) (L : List String) (k : String),
      collectTargets fs ts = .ok L → k ∈ L →
      ∃ t ∈ ts, ∃ l, collectTarget fs t = .ok l ∧ k ∈ l := by
  intro ts
  induction ts with
  | nil =>
      intro L k h hk
      injection h with h'
      rw [← h'] at hk
      cases hk
  | cons t ts ih =>
      intro L k h hk
      unfold collectTargets at h
      split at h
      · cases h
      · rename_i l hl
        split at h
        · cases h
        · rename_i r hr
          injection h with h'
          rw [← h'] at hk
          rcases List.mem_append.mp hk with hkl | hkr
          · exact ⟨t, by simp, l, hl, hkl⟩
          · obtain ⟨t', ht', l', hl', hk'⟩ := ih r k hr hkr
            exact ⟨t', List.mem_cons_of_mem _ ht', l', hl', hk'⟩

theorem collect_files_eq_sort {fs : FS} {L : List String}
    (h : collect_files fs = .ok L) :
    ∃ L', collectTargets fs HASH_TARGETS = .ok L' ∧ L = sortPaths L' := by
  unfold collect_files at h
  cases hc : collectTargets fs HASH_TARGETS with
  | error e =>
      rw [hc] at h
      cases h
  | ok L' =>
      rw [hc] at h
      injection h with h'
      exact ⟨L', rfl, h'.symm⟩

/-! ## Deduplication of the collection -/

theorem hash_targets_nodup : HASH_TARGETS.Nodup := by decide

theorem targets_no_overlap :
    ∀ t₁ ∈ HASH_TARGETS, ∀ t₂ ∈ HASH_TARGETS,
      t₁ = t₂ ∨ (underDir t₁ t₂ = false ∧ underDir t₂ t₁ = false) := by decide

theorem auth_not_under_targets :
    ∀ t ∈ HASH_TARGETS, underDir t "auth.json" = false := by decide

theorem collectTarget_nodup {fs : FS} {t : String} {l : List String}
    (hnd : (keysOf fs).Nodup) (h : collectTarget fs t = .ok l) : l.Nodup := by
  rcases collectTarget_ok_cases h with ⟨_, rfl⟩ | ⟨_, _, rfl⟩ | ⟨_, _, rfl⟩
  · simp
  · exact sortPaths_nodup (hnd.filter _)
  · simp

theorem collectTarget_disjoint {fs : FS} {t₁ t₂ : String} {l₁ l₂ : List String}
    (h₁mem : t₁ ∈ HASH_TARGETS) (h₂mem : t₂ ∈ HASH_TARGETS) (hne : t₁ ≠ t₂)
    (h₁ : collectTarget fs t₁ = .ok l₁) (h₂ : collectTarget fs t₂ = .ok l₂) :
    ∀ k ∈ l₁, k ∉ l₂ := by
  intro k hk₁ hk₂
  rcases mem_collectTarget h₁ hk₁ with ⟨hf₁, he₁⟩ | ⟨hf₁, hd₁, hmem₁⟩
  · rcases mem_collectTarget h₂ hk₂ with ⟨hf₂, he₂⟩ | ⟨hf₂, hd₂, hmem₂⟩
    · exact hne (he₁.symm.trans he₂)
    · rw [he₁] at hd₂
      rcases targets_no_overlap t₂ h₂mem t₁ h₁mem with he | ⟨hno, _⟩
      · exact hne he.symm
      · rw [hno] at hd₂
        cases hd₂
  · rcases mem_collectTarget h₂ hk₂ with ⟨hf₂, he₂⟩ | ⟨hf₂, hd₂, hmem₂⟩
    · rw [he₂] at hd₁
      rcases targets_no_overlap t₁ h₁mem t₂ h₂mem with he | ⟨hno, _⟩
      · exact hne he
      · rw [hno] at hd₁
        cases hd₁
    · rcases underDir_trich hd₁ hd₂ with he | hu | hu
      · exact hne he
      · rcases targets_no_overlap t₁ h₁mem t₂ h₂mem with he | ⟨hno, _⟩
        · exact hne he
        · rw [hno] at hu
          cases hu
      · rcases targets_no_overlap t₁ h₁mem t₂ h₂mem with he | ⟨_, hno⟩
        · exact hne he
        · rw [hno] at hu
          cases hu

theorem collectTargets_nodup {fs : FS} (hnd : (keysOf fs).Nodup) :
    ∀ ts L, ts.Nodup → (∀ t ∈ ts, t ∈ HASH_TARGETS) →
      collectTargets fs ts = .ok L → L.Nodup := by
  intro ts
  induction ts with
  | nil =>
      intro L _ _ h
      injection h with h'
      rw [← h']
      exact List.nodup_nil
  | cons t ts ih =>
      intro L hts hsub h
      unfold collectTargets at h
      split at h
      · cases h
      · rename_i l hl
        split at h
        · cases h
        · rename_i r hr
          injection h with h'
          rw [← h', List.nodup_append]
          refine ⟨collectTarget_nodup hnd hl,
            ih r (List.nodup_cons.mp hts).2 (fun u hu => hsub u (List.mem_cons_of_mem _ hu)) hr,
            ?_⟩
          intro k hk hkr
          obtain ⟨t', ht', l', hl', hk'⟩ := mem_collectTargets ts r k hr hkr
          have hne : t ≠ t' := fun he => (List.nodup_cons.mp hts).1 (he ▸ ht')
          exact collectTarget_disjoint (hsub t (by simp))
            (hsub t' (List.mem_cons_of_mem _ ht')) hne hl hl' k hk hk'

/-! ## C8: the resolved file list is deduplicated and sorted -/

/-- **C8.** On any filesystem state that lists each file once, a successful
`_collect_files` run returns a list with no duplicate path, in ascending
lexicographic order of the POSIX relative path strings. -/
theorem collected_list_nodup_sorted :
    ∀ fs L, (keysOf fs).Nodup → collect_files fs = .ok L →
      L.Nodup ∧ List.Sorted pathLe L := by
  intro fs L hnd h
  obtain ⟨L', hL', rfl⟩ := collect_files_eq_sort h
  exact ⟨sortPaths_nodup
      (collectTargets_nodup hnd HASH_TARGETS L' hash_targets_nodup (fun _ ht => ht) hL'),
    sortPaths_sorted L'⟩

theorem collected_list_nodup_sorted_witness :
    collect_files
        [("docker/Dockerfile", []), ("docker/scripts/lib", []),
         ("docker/scripts/orchestrator.sh", []), ("docker/prompts", []),
         ("docker/opencode", [])] =
      .ok ["docker/Dockerfile", "docker/opencode", "docker/prompts",
        "docker/scripts/lib", "docker/scripts/orchestrator.sh"] ∧
    (["docker/Dockerfile", "docker/opencode", "docker/prompts",
      "docker/scripts/lib", "docker/scripts/orchestrator.sh"] : List String).Nodup ∧
    List.Sorted pathLe
      ["docker/Dockerfile", "docker/opencode", "docker/prompts",
       "docker/scripts/lib", "docker/scripts/orchestrator.sh"] :=
  ⟨by decide,
    collected_list_nodup_sorted
      [("docker/Dockerfile", []), ("docker/scripts/lib", []),
       ("docker/scripts/orchestrator.sh", []), ("docker/prompts", []),
       ("docker/opencode", [])]
      ["docker/Dockerfile", "docker/opencode", "docker/prompts",
       "docker/scripts/lib", "docker/scripts/orchestrator.sh"]
      (by decide) (by decide)⟩

/-! ## C6: optional versus required inputs -/

/-- **C6.** An absent `auth.json` is silently skipped (the collection still
succeeds when all required targets resolve, and `auth.json` never appears in
the resolved list); any other absent target makes `_collect_files` — and
hence `calculate_repo_hash` — fail with a `MissingInput` error naming a
missing required path. -/
theorem optional_and_required_inputs :
    (∀ fs L, pathExists fs "auth.json" = false → collect_files fs = .ok L →
      "auth.json" ∉ L)
    ∧ (∀ fs : FS, (∀ t ∈ HASH_TARGETS, t ≠ "auth.json" → pathExists fs t = true) →
      ∃ L, collect_files fs = .ok L)
    ∧ (∀ (fs : FS) (t : String), t ∈ HASH_TARGETS → t ≠ "auth.json" →
      pathExists fs t = false →
      ∃ p, collect_files fs = .error (.missingInput p) ∧
        calculate_repo_hash fs = .error (.missingInput p) ∧
        pathExists fs p = false ∧ p ∈ HASH_TARGETS ∧ p ≠ "auth.json") := by
  refine ⟨?_, ?_, ?_⟩
  · intro fs L hex h hmem
    obtain ⟨L', hL', rfl⟩ := collect_files_eq_sort h
    rw [mem_sortPaths] at hmem
    obtain ⟨t, ht, l, hl, hk⟩ := mem_collectTargets HASH_TARGETS L' "auth.json" hL' hmem
    rcases mem_collectTarget hl hk with ⟨hf, he⟩ | ⟨_, hd, _⟩
    · rw [← he] at hf
      have : pathExists fs "auth.json" = true := by
        rw [pathExists, hf]
        rfl
      rw [hex] at this
      cases this
    · rw [auth_not_under_targets t ht] at hd
      cases hd
  · intro fs hall
    obtain ⟨L, hL⟩ := collectTargets_total HASH_TARGETS (fun t ht => by
      by_cases hta : t = "auth.json"
      · exact Or.inr hta
      · exact Or.inl (hall t ht hta))
    exact ⟨sortPaths L, by unfold collect_files; rw [hL]; rfl⟩
  · intro fs t ht hta hex
    obtain ⟨p, hp, hpex, hpmem, hpne⟩ :=
      collectTargets_error HASH_TARGETS ⟨t, ht, hex, hta⟩
    refine ⟨p, ?_, ?_, hpex, hpmem, hpne⟩
    · unfold collect_files
      rw [hp]
      rfl
    · unfold calculate_repo_hash collect_files
      rw [hp]
      rfl

theorem optional_and_required_inputs_witness :
    ("docker/prompts" : String) ∈ HASH_TARGETS ∧
    ∃ p, collect_files [("docker/Dockerfile", [])] = .error (.missingInput p) ∧
      calculate_repo_hash [("docker/Dockerfile", [])] = .error (.missingInput p) ∧
      pathExists [("docker/Dockerfile", [])] p = false ∧
      p ∈ HASH_TARGETS ∧ p ≠ "auth.json" :=
  ⟨by decide,
    optional_and_required_inputs.2.2 [("docker/Dockerfile", [])] "docker/prompts"
      (by decide) (by decide) (by decide)⟩

/-! ## C4: label inspection outcome classification -/

/-- **C4.** `get_image_hash_label` distinguishes exactly three outcomes: a
present label value is returned (stripped); an empty/`<no value>`/`null`
label or a failing inspect query yields `none` ("none recorded"); a missing
docker binary or a daemon-unreachable message on stderr raises the fatal
`ToolUnavailable` error instead. -/
theorem inspect_label_classification :
    (get_image_hash_label .binaryMissing =
      .error (.toolUnavailable "Docker executable not found. Is Docker installed and on PATH?"))
    ∧ (∀ out err rc, err ≠ "" → strContains err DAEMON_MARKER = true →
        get_image_hash_label (.completed out err rc) =
          .error (.toolUnavailable "Cannot connect to the Docker daemon. Is it running?"))
    ∧ (∀ out err rc, err = "" ∨ strContains err DAEMON_MARKER = false → rc ≠ 0 →
        get_image_hash_label (.completed out err rc) = .ok none)
    ∧ (∀ out err, err = "" ∨ strContains err DAEMON_MARKER = false →
        pyStrip out = "" ∨ pyStrip out = "<no value>" ∨ pyStrip out = "null" →
        get_image_hash_label (.completed out err 0) = .ok none)
    ∧ (∀ out err, err = "" ∨ strContains err DAEMON_MARKER = false →
        pyStrip out ≠ "" → pyStrip out ≠ "<no value>" → pyStrip out ≠ "null" →
        get_image_hash_label (.completed out err 0) = .ok (some (pyStrip out))) := by
  refine ⟨rfl, ?_, ?_, ?_, ?_⟩
  · intro out err rc hne hmark
    simp [get_image_hash_label, hne, hmark]
  · intro out err rc hnomark hrc
    have hcond : ((!(err == "")) && strContains err DAEMON_MARKER) = false := by
      rcases hnomark with h | h <;> simp [h]
    have hrc' : (rc != 0) = true := by simpa using hrc
    simp [get_image_hash_label, hcond, hrc']
  · intro out err hnomark hbad
    have hcond : ((!(err == "")) && strContains err DAEMON_MARKER) = false := by
      rcases hnomark with h | h <;> simp [h]
    have hbad' : (pyStrip out == "" || pyStrip out == "<no value>" ||
        pyStrip out == "null") = true := by
      rcases hbad with h | h | h <;> simp [h]
    simp [get_image_hash_label, hcond, hbad']
  · intro out err hnomark h1 h2 h3
    have hcond : ((!(err == "")) && strContains err DAEMON_MARKER) = false := by
      rcases hnomark with h | h <;> simp [h]
    have hbad' : (pyStrip out == "" || pyStrip out == "<no value>" ||
        pyStrip out == "null") = false := by
      simp [h1, h2, h3]
    simp [get_image_hash_label, hcond, hbad']

theorem inspect_label_classification_witness :
    ("warning: Cannot connect to the Docker daemon at unix:" ≠ "" ∧
      strContains "warning: Cannot connect to the Docker daemon at unix:" DAEMON_MARKER = true) ∧
    get_image_hash_label (.completed "x" "warning: Cannot connect to the Docker daemon at unix:" 0) =
      .error (.toolUnavailable "Cannot connect to the Docker daemon. Is it running?") :=
  ⟨⟨by decide, by decide⟩,
    inspect_label_classification.2.1 "x"
      "warning: Cannot connect to the Docker daemon at unix:" 0 (by decide) (by decide)⟩

/-! ## C5: build invocation outcome classification -/

/-- **C5.** `build_docker_image` raises the fatal `ToolUnavailable` error
when the docker binary cannot be started or stderr carries the
daemon-unreachable marker; otherwise it never raises and returns `true`
exactly when the build exited with status zero. -/
theorem build_outcome_classification :
    (∀ d i c v, build_docker_image d i c v .binaryMissing =
      .error (.toolUnavailable "Docker executable not found. Is Docker installed and on PATH?"))
    ∧ (∀ d i c v out err rc, err ≠ "" → strContains err DAEMON_MARKER = true →
        build_docker_image d i c v (.completed out err rc) =
          .error (.toolUnavailable "Cannot connect to the Docker daemon. Is it running?"))
    ∧ (∀ d i c v out err rc, err = "" ∨ strContains err DAEMON_MARKER = false →
        ∃ b, build_docker_image d i c v (.completed out err rc) = .ok b ∧
          (b = true ↔ rc = 0)) := by
  refine ⟨fun _ _ _ _ => rfl, ?_, ?_⟩
  · intro d i c v out err rc hne hmark
    simp [build_docker_image, hne, hmark]
  · intro d i c v out err rc hnomark
    have hcond : ((!(err == "")) && strContains err DAEMON_MARKER) = false := by
      rcases hnomark with h | h <;> simp [h]
    refine ⟨rc == 0, ?_, by simp⟩
    simp [build_docker_image, hcond]

theorem build_outcome_classification_witness :
    (("" : String) = "" ∨ strContains "" DAEMON_MARKER = false) ∧
    ∃ b, build_docker_image "docker/Dockerfile" "github-opencode-interface" "h" false
        (.completed "" "" 1) = .ok b ∧ (b = true ↔ (1 : Int) = 0) :=
  ⟨Or.inl rfl,
    build_outcome_classification.2.2 "docker/Dockerfile" "github-opencode-interface" "h" false
      "" "" 1 (Or.inl rfl)⟩

/-! ## C10: a returned label value is clean -/

/-- **C10.** Whenever `get_image_hash_label` returns a stored fingerprint,
that string is non-empty, carries no leading or trailing whitespace, and is
neither `<no value>` nor `null`. -/
theorem returned_label_is_clean :
    ∀ run v, get_image_hash_label run = .ok (some v) →
      v ≠ "" ∧ v ≠ "<no value>" ∧ v ≠ "null" ∧
      (∀ c, v.data.head? = some c → isSpaceChar c = false) ∧
      (∀ c, v.data.getLast? = some c → isSpaceChar c = false) := by
  intro run v h
  cases run with
  | binaryMissing => cases h
  | completed out err rc =>
      simp only [get_image_hash_label] at h
      split at h
      · cases h
      · split at h
        · cases h
        · split at h
          · cases h
          · rename_i hbad
            have hv : v = pyStrip out := by
              cases h; rfl
            rw [Bool.not_eq_true, Bool.or_eq_false_iff, Bool.or_eq_false_iff] at hbad
            subst hv
            refine ⟨by simpa using hbad.1.1, by simpa using hbad.1.2,
              by simpa using hbad.2, ?_, ?_⟩
            · intro c hc
              exact stripChars_head (l := out.data) hc
            · intro c hc
              exact stripChars_getLast (l := out.data) hc

/-! ## C1: the rebuild decision -/

/-- **C1.** `should_rebuild_image` always pairs its verdict with the freshly
computed fingerprint (even under `force_build`); the verdict is `true` under
force, else `true` when no label is recorded, and otherwise records whether
the stored label differs from the fresh fingerprint. -/
theorem rebuild_decision_correct :
    ∀ (fs : FS) (run : RunOutcome) (force b : Bool) (h : String),
      should_rebuild_image fs run force = .ok (b, h) →
      calculate_repo_hash fs = .ok h ∧
      (force = true → b = true) ∧
      (force = false →
        ∃ r, get_image_hash_label run = .ok r ∧
          b = (match r with
               | none => true
               | some s => s != h)) := by
  intro fs run force b h hsr
  unfold should_rebuild_image at hsr
  split at hsr
  · cases hsr
  · rename_i current hcalc
    split at hsr
    · rename_i hforce
      injection hsr with hp
      injection hp with hb hh
      refine ⟨by rw [hcalc, hh], fun _ => hb.symm, fun hf => ?_⟩
      rw [hforce] at hf
      cases hf
    · rename_i hforce
      have hforce' : force = false := by
        cases force
        · rfl
        · exact absurd rfl hforce
      split at hsr
      · cases hsr
      · rename_i hlbl
        injection hsr with hp
        injection hp with hb hh
        refine ⟨by rw [hcalc, hh], fun hf => ?_, fun _ => ⟨none, hlbl, hb.symm⟩⟩
        rw [hforce'] at hf
        cases hf
      · rename_i s hlbl
        injection hsr with hp
        injection hp with hb hh
        refine ⟨by rw [hcalc, hh], fun hf => ?_, fun _ => ⟨some s, hlbl, by rw [← hb, hh]⟩⟩
        rw [hforce'] at hf
        cases hf

theorem rebuild_decision_correct_witness :
    should_rebuild_image
        [("docker/Dockerfile", []), ("docker/scripts/lib", []),
         ("docker/scripts/orchestrator.sh", []), ("docker/prompts", []),
         ("docker/opencode", [])]
        (.completed "1a172af3b7b81fd2e0b0e022c4dd5b427c705c2543c36059eed451ba4a51ff3c" "" 0)
        false =
      .ok (false, "1a172af3b7b81fd2e0b0e022c4dd5b427c705c2543c36059eed451ba4a51ff3c") ∧
    calculate_repo_hash
        [("docker/Dockerfile", []), ("docker/scripts/lib", []),
         ("docker/scripts/orchestrator.sh", []), ("docker/prompts", []),
         ("docker/opencode", [])] =
      .ok "1a172af3b7b81fd2e0b0e022c4dd5b427c705c2543c36059eed451ba4a51ff3c" :=
  ⟨by decide,
    (rebuild_decision_correct
      [("docker/Dockerfile", []), ("docker/scripts/lib", []),
       ("docker/scripts/orchestrator.sh", []), ("docker/prompts", []),
       ("docker/opencode", [])]
      (.completed "1a172af3b7b81fd2e0b0e022c4dd5b427c705c2543c36059eed451ba4a51ff3c" "" 0)
      false false "1a172af3b7b81fd2e0b0e022c4dd5b427c705c2543c36059eed451ba4a51ff3c"
      (by decide)).1⟩

/-! ## C2: the hasher is fed one concatenated stream -/

theorem chunkUpd_eq : ∀ (fuel : Nat) (h c : List Nat), c.length ≤ fuel →
    chunkUpd fuel h c = h ++ c := by
  intro fuel
  induction fuel with
  | zero =>
      intro h c hc
      have : c = [] := List.length_eq_zero.mp (Nat.le_zero.mp hc)
      rw [this, List.append_nil]
      rfl
  | succ fuel ih =>
      intro h c hc
      cases c with
      | nil => rw [List.append_nil]; rfl
      | cons b bs =>
          show chunkUpd fuel (hUpdate h ((b :: bs).take 1048576)) ((b :: bs).drop 1048576) = _
          have hlen : ((b :: bs).drop 1048576).length ≤ fuel := by
            rw [List.length_drop]
            simp only [List.length_cons] at hc ⊢
            omega
          rw [ih _ _ hlen, hUpdate, List.append_assoc, List.take_append_drop]

theorem hash_file_segment (h : List Nat) (fs : FS) (p : String) :
    hash_file h fs p = h ++ fileSegment fs p := by
  show chunkUpd (lookupC fs p).length ((h ++ utf8Bytes p) ++ [0]) (lookupC fs p) ++ [0] =
    h ++ (utf8Bytes p ++ 0 :: (lookupC fs p ++ [0]))
  rw [chunkUpd_eq _ _ _ (le_refl _)]
  simp

theorem foldl_hash_file (fs : FS) :
    ∀ (files : List String) (h : List Nat),
      files.foldl (fun h p => hash_file h fs p) h = h ++ hashStream fs files := by
  intro files
  induction files with
  | nil =>
      intro h
      simp [hashStream]
  | cons p ps ih =>
      intro h
      simp only [List.foldl_cons, hashStream, List.flatMap_cons]
      rw [ih, hash_file_segment, List.append_assoc]
      rfl

/-- **C2.** `calculate_repo_hash` renders as lowercase hex the digest of one
SHA-256 state fed, per collected file in order, the UTF-8 relative path,
one NUL, the content bytes, and one trailing NUL; on the single file
`a.txt` containing `"hello"` the hasher's digest is the SHA-256 of
`"a.txt" ++ 0x00 ++ "hello" ++ 0x00`. -/
theorem fingerprint_is_stream_digest :
    (∀ (fs : FS) (L : List String), collect_files fs = .ok L →
      calculate_repo_hash fs = .ok (sha256hex (hashStream fs L)))
    ∧ digest_of [("a.txt", utf8Bytes "hello")] ["a.txt"] =
        sha256hex (utf8Bytes "a.txt" ++ 0 :: (utf8Bytes "hello" ++ [0]))
    ∧ sha256hex (utf8Bytes "a.txt" ++ 0 :: (utf8Bytes "hello" ++ [0])) =
        "3cb3fd4eec476f06fa7b3f636359420c227a672ebf7a17c6b735ac26aec394cb" := by
  refine ⟨?_, by decide, by decide⟩
  intro fs L h
  unfold calculate_repo_hash
  rw [h]
  show Except.ok (digest_of fs L) = _
  unfold digest_of
  rw [foldl_hash_file, List.nil_append]

theorem fingerprint_is_stream_digest_witness :
    collect_files
        [("docker/Dockerfile", []), ("docker/scripts/lib", []),
         ("docker/scripts/orchestrator.sh", []), ("docker/prompts", []),
         ("docker/opencode", [])] =
      .ok ["docker/Dockerfile", "docker/opencode", "docker/prompts",
        "docker/scripts/lib", "docker/scripts/orchestrator.sh"] ∧
    calculate_repo_hash
        [("docker/Dockerfile", []), ("docker/scripts/lib", []),
         ("docker/scripts/orchestrator.sh", []), ("docker/prompts", []),
         ("docker/opencode", [])] =
      .ok (sha256hex (hashStream
        [("docker/Dockerfile", []), ("docker/scripts/lib", []),
         ("docker/scripts/orchestrator.sh", []), ("docker/prompts", []),
         ("docker/opencode", [])]
        ["docker/Dockerfile", "docker/opencode", "docker/prompts",
         "docker/scripts/lib", "docker/scripts/orchestrator.sh"])) :=
  ⟨by decide,
    fingerprint_is_stream_digest.1
      [("docker/Dockerfile", []), ("docker/scripts/lib", []),
       ("docker/scripts/orchestrator.sh", []), ("docker/prompts", []),
       ("docker/opencode", [])]
      ["docker/Dockerfile", "docker/opencode", "docker/prompts",
       "docker/scripts/lib", "docker/scripts/orchestrator.sh"]
      (by decide)⟩

/-! ## C9: `${VAR}` expansion -/

theorem scanName_len : ∀ l n r, scanName l = some (n, r) → r.length < l.length := by
  intro l
  induction l with
  | nil => intro n r h; cases h
  | cons c rest ih =>
      intro n r h
      unfold scanName at h
      split at h
      · injection h with h'
        injection h' with h1 h2
        rw [← h2]
        simp
      · split at h
        · rename_i n' r' hsc
          injection h with h'
          injection h' with h1 h2
          rw [← h2]
          exact Nat.lt_trans (ih n' r' hsc) (by simp)
        · cases h

theorem scanName_of_append :
    ∀ (n rest : List Char), '\x7d' ∉ n →
      scanName (n ++ '\x7d' :: rest) = some (n, rest) := by
  intro n
  induction n with
  | nil =>
      intro rest _
      show scanName ('\x7d' :: rest) = _
      unfold scanName
      rw [if_pos rfl]
  | cons c cs ih =>
      intro rest hmem
      have hc : ¬ c = '\x7d' := fun he => hmem (by simp [he])
      show scanName (c :: (cs ++ '\x7d' :: rest)) = _
      unfold scanName
      rw [if_neg hc, ih rest (fun h => hmem (List.mem_cons_of_mem _ h))]

theorem expandGo_nil (lk ek : String → Option String) :
    ∀ fuel, expandGo lk ek fuel [] = [] := by
  intro fuel
  cases fuel <;> rfl

theorem expandGo_cons (lk ek : String → Option String) (fuel : Nat) (c : Char)
    (rest : List Char) :
    expandGo lk ek (fuel + 1) (c :: rest) =
      if c = '$' then
        (match rest with
         | '\x7b' :: rest2 =>
             (match scanName rest2 with
              | some (n, r) =>
                  if n = [] then c :: expandGo lk ek fuel rest
                  else (lookupVar lk ek (String.mk n)).data ++ expandGo lk ek fuel r
              | none => c :: expandGo lk ek fuel rest)
         | _ => c :: expandGo lk ek fuel rest)
      else c :: expandGo lk ek fuel rest := by
  rfl

theorem expandGo_lit (lk ek : String → Option String) {c : Char} (hc : ¬ c = '$')
    (fuel : Nat) (rest : List Char) :
    expandGo lk ek (fuel + 1) (c :: rest) = c :: expandGo lk ek fuel rest := by
  rw [expandGo_cons, if_neg hc]

theorem expandGo_token (lk ek : String → Option String) {n r : List Char}
    (rest2 : List Char) (hscan : scanName rest2 = some (n, r)) (hn : ¬ n = [])
    (fuel : Nat) :
    expandGo lk ek (fuel + 1) ('$' :: '\x7b' :: rest2) =
      (lookupVar lk ek (String.mk n)).data ++ expandGo lk ek fuel r := by
  rw [expandGo_cons, if_pos rfl]
  show (match scanName rest2 with
        | some (n, r) =>
            if n = [] then '$' :: expandGo lk ek fuel ('\x7b' :: rest2)
            else (lookupVar lk ek (String.mk n)).data ++ expandGo lk ek fuel r
        | none => '$' :: expandGo lk ek fuel ('\x7b' :: rest2)) = _
  rw [hscan]
  show (if n = [] then _
      else (lookupVar lk ek (String.mk n)).data ++ expandGo lk ek fuel r) = _
  rw [if_neg hn]

theorem expandGo_dollar_nil (lk ek : String → Option String) (fuel : Nat) :
    expandGo lk ek (fuel + 1) ['$'] = ['$'] := by
  rw [expandGo_cons, if_pos rfl]
  show '$' :: expandGo lk ek fuel [] = ['$']
  rw [expandGo_nil]

theorem expandGo_dollar_other (lk ek : String → Option String) {d : Char}
    (hd : ¬ d = '\x7b') (fuel : Nat) (rest : List Char) :
    expandGo lk ek (fuel + 1) ('$' :: d :: rest) =
      '$' :: expandGo lk ek fuel (d :: rest) := by
  rw [expandGo_cons, if_pos rfl]
  split
  · rename_i rest2 heq
    injection heq with h1 _
    exact absurd h1 hd
  · rfl

theorem expandGo_brace_none (lk ek : String → Option String) {rest2 : List Char}
    (hscan : scanName rest2 = none) (fuel : Nat) :
    expandGo lk ek (fuel + 1) ('$' :: '\x7b' :: rest2) =
      '$' :: expandGo lk ek fuel ('\x7b' :: rest2) := by
  rw [expandGo_cons, if_pos rfl]
  show (match scanName rest2 with
        | some (n, r) =>
            if n = [] then '$' :: expandGo lk ek fuel ('\x7b' :: rest2)
            else (lookupVar lk ek (String.mk n)).data ++ expandGo lk ek fuel r
        | none => '$' :: expandGo lk ek fuel ('\x7b' :: rest2)) = _
  rw [hscan]

theorem expandGo_brace_empty (lk ek : String → Option String) {rest2 r : List Char}
    (hscan : scanName rest2 = some ([], r)) (fuel : Nat) :
    expandGo lk ek (fuel + 1) ('$' :: '\x7b' :: rest2) =
      '$' :: expandGo lk ek fuel ('\x7b' :: rest2) := by
  rw [expandGo_cons, if_pos rfl]
  show (match scanName rest2 with
        | some (n, r) =>
            if n = [] then '$' :: expandGo lk ek fuel ('\x7b' :: rest2)
            else (lookupVar lk ek (String.mk n)).data ++ expandGo lk ek fuel r
        | none => '$' :: expandGo lk ek fuel ('\x7b' :: rest2)) = _
  rw [hscan]
  show (if ([] : List Char) = [] then '$' :: expandGo lk ek fuel ('\x7b' :: rest2)
      else _) = _
  rw [if_pos rfl]

theorem expandGo_fuel (lk ek : String → Option String) :
    ∀ fuel₁ fuel₂ l, l.length ≤ fuel₁ → l.length ≤ fuel₂ →
      expandGo lk ek fuel₁ l = expandGo lk ek fuel₂ l := by
  intro fuel₁
  induction fuel₁ with
  | zero =>
      intro fuel₂ l h₁ _
      rw [List.length_eq_zero.mp (Nat.le_zero.mp h₁), expandGo_nil, expandGo_nil]
  | succ fuel ih =>
      intro fuel₂ l h₁ h₂
      cases l with
      | nil => rw [expandGo_nil, expandGo_nil]
      | cons c rest =>
          cases fuel₂ with
          | zero => simp at h₂
          | succ fuel₂' =>
              simp only [List.length_cons, Nat.add_le_add_iff_right] at h₁ h₂
              by_cases hc : c = '$'
              · subst hc
                cases rest with
                | nil => rw [expandGo_dollar_nil, expandGo_dollar_nil]
                | cons d rest' =>
                    by_cases hd : d = '\x7b'
                    · subst hd
                      cases hscan : scanName rest' with
                      | none =>
                          rw [expandGo_brace_none lk ek hscan,
                            expandGo_brace_none lk ek hscan]
                          exact congrArg _ (ih fuel₂' _ h₁ h₂)
                      | some p =>
                          obtain ⟨n, r⟩ := p
                          by_cases hn : n = []
                          · subst hn
                            rw [expandGo_brace_empty lk ek hscan,
                              expandGo_brace_empty lk ek hscan]
                            exact congrArg _ (ih fuel₂' _ h₁ h₂)
                          · rw [expandGo_token lk ek rest' hscan hn,
                              expandGo_token lk ek rest' hscan hn]
                            have hr := scanName_len rest' n r hscan
                            have hr₁ : r.length ≤ fuel := by
                              simp at h₁
                              omega
                            have hr₂ : r.length ≤ fuel₂' := by
                              simp at h₂
                              omega
                            exact congrArg _ (ih fuel₂' r hr₁ hr₂)
                    · rw [expandGo_dollar_other lk ek hd, expandGo_dollar_other lk ek hd]
                      exact congrArg _ (ih fuel₂' _ h₁ h₂)
              · rw [expandGo_lit lk ek hc, expandGo_lit lk ek hc]
                exact congrArg _ (ih fuel₂' rest h₁ h₂)

theorem string_mk_data (s : String) : String.mk s.data = s := rfl

theorem string_mk_append (a b : List Char) :
    String.mk (a ++ b) = String.mk a ++ String.mk b := rfl

theorem expandGo_lit_prefix (lk ek : String → Option String) :
    ∀ (pre s : List Char), '$' ∉ pre →
      expandGo lk ek (pre ++ s).length (pre ++ s) =
        pre ++ expandGo lk ek s.length s := by
  intro pre
  induction pre with
  | nil => intro s _; simp
  | cons c pre' ih =>
      intro s hmem
      have hc : ¬ c = '$' := fun he => hmem (by simp [he])
      rw [show ((c :: pre') ++ s).length = (pre' ++ s).length + 1 from rfl,
        List.cons_append, expandGo_lit lk ek hc,
        ih s (fun hm => hmem (List.mem_cons_of_mem _ hm))]
      rfl

theorem expand_vars_lit (lk ek : String → Option String) (pre s : String)
    (h : '$' ∉ pre.data) :
    expand_vars lk ek (pre ++ s) = pre ++ expand_vars lk ek s := by
  unfold expand_vars
  rw [String.data_append, expandGo_lit_prefix lk ek pre.data s.data h,
    string_mk_append, string_mk_data]

theorem expand_vars_token (lk ek : String → Option String) (name s : String)
    (hb : '\x7d' ∉ name.data) (hne : name.data ≠ []) :
    expand_vars lk ek ("$\x7b" ++ name ++ "\x7d" ++ s) =
      lookupVar lk ek name ++ expand_vars lk ek s := by
  unfold expand_vars
  have hdata : ("$\x7b" ++ name ++ "\x7d" ++ s).data =
      '$' :: '\x7b' :: (name.data ++ '\x7d' :: s.data) := by
    simp [String.data_append]
  rw [hdata]
  have hlen : ('$' :: '\x7b' :: (name.data ++ '\x7d' :: s.data)).length =
      (name.data.length + s.data.length + 2) + 1 := by
    simp
    omega
  rw [hlen, expandGo_token lk ek _ (scanName_of_append name.data s.data hb) hne,
    string_mk_append, string_mk_data]
  have hfuel : expandGo lk ek (name.data.length + s.data.length + 2) s.data =
      expandGo lk ek s.data.length s.data :=
    expandGo_fuel lk ek _ _ s.data (by omega) (le_refl _)
  rw [hfuel]

/-! ## C9: configuration variable expansion -/

/-- **C9.** `Config._expand_vars` replaces each `$\x7bNAME\x7d` token by the
local map's value, else the environment's value, else the empty string, in
one left-to-right pass: the replacement text is spliced verbatim (the
remainder of the scan continues after the token only), and text without
`$` is copied unchanged. -/
theorem expand_vars_spec :
    (∀ (lk ek : String → Option String) (name s : String),
      '\x7d' ∉ name.data → name.data ≠ [] →
      expand_vars lk ek ("$\x7b" ++ name ++ "\x7d" ++ s) =
        lookupVar lk ek name ++ expand_vars lk ek s)
    ∧ (∀ (lk ek : String → Option String) (pre s : String), '$' ∉ pre.data →
      expand_vars lk ek (pre ++ s) = pre ++ expand_vars lk ek s)
    ∧ (∀ (lk ek : String → Option String) (name v : String),
      lk name = some v → lookupVar lk ek name = v)
    ∧ (∀ (lk ek : String → Option String) (name v : String),
      lk name = none → ek name = some v → lookupVar lk ek name = v)
    ∧ (∀ (lk ek : String → Option String) (name : String),
      lk name = none → ek name = none → lookupVar lk ek name = "") := by
  refine ⟨expand_vars_token, expand_vars_lit, ?_, ?_, ?_⟩
  · intro lk ek name v h
    unfold lookupVar
    rw [h]
  · intro lk ek name v h₁ h₂
    unfold lookupVar
    rw [h₁, h₂]
  · intro lk ek name h₁ h₂
    unfold lookupVar
    rw [h₁, h₂]

theorem expand_vars_spec_witness :
    expand_vars lkW ekW ("$\x7b" ++ "A" ++ "\x7d" ++ "tail") =
      lookupVar lkW ekW "A" ++ expand_vars lkW ekW "tail" ∧
    lookupVar lkW ekW "A" = "$\x7bB\x7d" ∧
    expand_vars lkW ekW ("$\x7b" ++ "A" ++ "\x7d" ++ "tail") = "$\x7bB\x7dtail" :=
  ⟨expand_vars_spec.1 lkW ekW "A" "tail" (by decide) (by decide), by decide, by decide⟩

theorem returned_label_is_clean_witness :
    get_image_hash_label (.completed "  abc \n" "" 0) = .ok (some "abc") ∧
    ("abc" : String) ≠ "" ∧ ("abc" : String) ≠ "<no value>" ∧ ("abc" : String) ≠ "null" :=
  ⟨by decide,
    (returned_label_is_clean (.completed "  abc \n" "" 0) "abc" (by decide)).1,
    (returned_label_is_clean (.completed "  abc \n" "" 0) "abc" (by decide)).2.1,
    (returned_label_is_clean (.completed "  abc \n" "" 0) "abc" (by decide)).2.2.1⟩

/-! ## C7: sensitivity. Helper lemmas about streams and single edits -/

theorem keysOf_append (A B : FS) : keysOf (A ++ B) = keysOf A ++ keysOf B := by
  simp [keysOf]

end DockerCache
